import Mathlib

/-!
Verification development for the secure JSON container codec in
`JSON_encoder_GUI/secure_json_encoder.py` (class `SecureJsonEncoder`).

Shallow embedding conventions:
* Bytes are `Nat` values (the source manipulates Python `bytes`); byte strings
  are `List Nat`.
* Library primitives that the source calls but does not define are parameters:
  the AES-256 block permutation (`Eb`/`Db`, keyed), `hmac`+`hashlib.sha256`
  (`hmacF`), and `hashlib.pbkdf2_hmac` (`deriveKey`).  The CBC chaining,
  buffering and finalize behaviour of `cryptography`'s `Cipher` objects is
  modelled concretely, as is everything the repository itself implements:
  key-source validation, GIF signature check, base64 encoding, the streaming
  JSON chunker, the 1 MiB window loop with its padding branch, the container
  header layout, the HMAC data flow, the chunked read-back loop, and the
  unpadding step.
* `json.dumps({key: value})[1:-1].encode('utf-8')` of each mapping entry is
  abstracted as one byte-list fragment; `json.loads` on decrypt is an abstract
  parameter `loads`.
* Fallible paths return `Except CodecError _`; each constructor names the
  concrete exception the Python code raises at that point.
-/

/-- Errors raised by `SecureJsonEncoder` (all `ValueError` in the source except
`indexedEmpty`, which is the `IndexError` from `decrypted_data[-1]` on an empty
buffer) together with the errors the `cryptography` library raises inside the
calls the source makes. -/
inductive CodecError where
  /-- lines 117-120 / 212-215: zero or two key sources supplied. -/
  | invalidKeySource
  /-- line 102: key file does not start with a GIF signature. -/
  | invalidImageFormat
  /-- lines 230-234: first three bytes are not the supported method tag. -/
  | unsupportedMethod
  /-- `modes.CBC(iv)` rejects an IV that is not 16 bytes. -/
  | invalidIVSize
  /-- `algorithms.AES(key)` rejects a key that is not 16/24/32 bytes. -/
  | invalidKeySize
  /-- cipher `finalize()` with a buffered partial block. -/
  | unalignedData
  /-- line 267: `ValueError("Invalid password")` on HMAC mismatch. -/
  | authenticationError
  /-- `decrypted_data[-1]` on an empty bytearray raises `IndexError`. -/
  | indexedEmpty
  /-- line 277: `json.loads` (or utf-8 decode) fails on the unpadded bytes. -/
  | malformedPlaintext
deriving DecidableEq, Repr

instance exceptDecEq {ε α : Type} [DecidableEq ε] [DecidableEq α] :
    DecidableEq (Except ε α)
  | .error e, .error f =>
    if h : e = f then isTrue (by rw [h]) else isFalse (fun hh => by cases hh; exact h rfl)
  | .error _, .ok _ => isFalse (fun h => by cases h)
  | .ok _, .error _ => isFalse (fun h => by cases h)
  | .ok a, .ok b =>
    if h : a = b then isTrue (by rw [h]) else isFalse (fun hh => by cases hh; exact h rfl)

/-! ## Constants of `SecureJsonEncoder` (source lines 79-82) and the container
method tag (line 188, the bytes of `b'pwd'`). -/

def SALT_SIZE : Nat := 32

def KEY_SIZE : Nat := 32

def CHUNK_SIZE : Nat := 1024 * 1024

def methodTag : List Nat := [112, 119, 100]

/-! ## CBC cipher-context model

The source drives `cryptography`'s `Cipher(AES(key), CBC(iv)).encryptor()` /
`.decryptor()` objects.  Their documented behaviour: `update` consumes bytes,
processes as many complete 16-byte blocks as are available (buffering any
partial trailing block), and returns the processed output; `finalize` raises
unless the buffered partial block is empty.  CBC chains each block with the
previous ciphertext block (initially the IV) by XOR.  The AES-256 block
permutation itself is external; it is a parameter `Eb`/`Db : key → block →
block`.  The recursions use an explicit fuel argument (always called with
fuel ≥ the number of blocks) so that they stay kernel-computable. -/

def xorBytes (a b : List Nat) : List Nat := List.zipWith Nat.xor a b

/-- Result of running a cipher over a byte string: the new chaining block,
the emitted output, and the unconsumed tail (shorter than one block). -/
structure BlockRun where
  prev : List Nat
  out : List Nat
  rest : List Nat
deriving DecidableEq, Repr

/-- CBC encryption over whole blocks: while at least 16 bytes remain, XOR the
next block with the chaining value, apply the block permutation, emit. -/
def cbcEncCore (Eb : List Nat → List Nat) : Nat → List Nat → List Nat → BlockRun
  | 0, prev, d => ⟨prev, [], d⟩
  | fuel + 1, prev, d =>
    if 16 ≤ d.length then
      let c := Eb (xorBytes prev (d.take 16))
      let r := cbcEncCore Eb fuel c (d.drop 16)
      ⟨r.prev, c ++ r.out, r.rest⟩
    else ⟨prev, [], d⟩

/-- CBC decryption over whole blocks: invert the block permutation, XOR with
the chaining value, and chain on the ciphertext block just consumed. -/
def cbcDecCore (Db : List Nat → List Nat) : Nat → List Nat → List Nat → BlockRun
  | 0, prev, d => ⟨prev, [], d⟩
  | fuel + 1, prev, d =>
    if 16 ≤ d.length then
      let c := d.take 16
      let p := xorBytes prev (Db c)
      let r := cbcDecCore Db fuel c (d.drop 16)
      ⟨r.prev, p ++ r.out, r.rest⟩
    else ⟨prev, [], d⟩

/-- Streaming cipher-context state: chaining block and buffered partial block. -/
structure CipherState where
  prev : List Nat
  carry : List Nat
deriving DecidableEq, Repr

/-- `encryptor.update(data)`: prepend the buffered partial block, process all
complete blocks, buffer the remainder. -/
def encUpdate (Eb : List Nat → List Nat) (st : CipherState) (data : List Nat) :
    CipherState × List Nat :=
  let d := st.carry ++ data
  let r := cbcEncCore Eb d.length st.prev d
  (⟨r.prev, r.rest⟩, r.out)

/-- `decryptor.update(data)`: same streaming discipline as `encUpdate`. -/
def decUpdate (Db : List Nat → List Nat) (st : CipherState) (data : List Nat) :
    CipherState × List Nat :=
  let d := st.carry ++ data
  let r := cbcDecCore Db d.length st.prev d
  (⟨r.prev, r.rest⟩, r.out)

/-- `finalize()`: returns no bytes in CBC mode, but raises `ValueError` if a
partial block is still buffered. -/
def ctxFinalize (st : CipherState) : Except CodecError (List Nat) :=
  if st.carry = [] then .ok [] else .error .unalignedData

/-! ## Key-source resolution (lines 95-124 and 212-219) -/

/-- Index into the standard base64 alphabet (`base64.b64encode`). -/
def b64Char (i : Nat) : Nat :=
  if i < 26 then 65 + i
  else if i < 52 then 97 + (i - 26)
  else if i < 62 then 48 + (i - 52)
  else if i = 62 then 43
  else 47

/-- `base64.b64encode`: encode three input bytes as four alphabet characters,
padding a final one- or two-byte group with `'='` (61). -/
def base64Core : Nat → List Nat → List Nat
  | 0, _ => []
  | _, [] => []
  | _ + 1, [a] =>
    [b64Char (a / 4), b64Char (a % 4 * 16), 61, 61]
  | _ + 1, [a, b] =>
    [b64Char (a / 4), b64Char (a % 4 * 16 + b / 16), b64Char (b % 16 * 4), 61]
  | fuel + 1, a :: b :: c :: rest =>
    b64Char (a / 4) :: b64Char (a % 4 * 16 + b / 16) ::
      b64Char (b % 16 * 4 + c / 64) :: b64Char (c % 64) :: base64Core fuel rest

def base64Encode (bs : List Nat) : List Nat := base64Core bs.length bs

/-- `_get_image_hash` (lines 95-107): check the 6-byte GIF signature
(`GIF87a` or `GIF89a`), then use the base64 encoding of the whole file as the
password-equivalent material. -/
def getImageHash (imageBytes : List Nat) : Except CodecError (List Nat) :=
  let header := imageBytes.take 6
  if header = [71, 73, 70, 56, 55, 97] ∨ header = [71, 73, 70, 56, 57, 97] then
    .ok (base64Encode imageBytes)
  else .error .invalidImageFormat

/-- Lines 117-124 (and identically 212-219): exactly one of password /
gif_key_path must be supplied; a GIF is reduced to password material.
A password is represented by its utf-8 bytes, a GIF key by its file bytes. -/
def resolveMaterial (password gifBytes : Option (List Nat)) :
    Except CodecError (List Nat) :=
  match password, gifBytes with
  | none, none => .error .invalidKeySource
  | some _, some _ => .error .invalidKeySource
  | some p, none => .ok p
  | none, some g => getImageHash g

/-! ## Big-endian length field (lines 192 and 227) -/

/-- `int.to_bytes(n, byteorder='big')`. -/
def toBytesBE : Nat → Nat → List Nat
  | 0, _ => []
  | k + 1, v => toBytesBE k (v / 256) ++ [v % 256]

/-- `int.from_bytes(bs, byteorder='big')` (accepts any length, `0` on `b''`). -/
def fromBytesBE (bs : List Nat) : Nat := bs.foldl (fun a b => a * 256 + b) 0

/-! ## Streaming JSON assembler (lines 142-151) -/

/-- `json_chunks()`: yield `b'{'`, then the serialized entries separated by
`b','`, then `b'}'`.  Each element of `data` stands for the bytes of
`json.dumps({key: value})[1:-1].encode('utf-8')` for one mapping entry, in
insertion order. -/
def jsonChunks (data : List (List Nat)) : List (List Nat) :=
  [[123]] ++ sepEntries data ++ [[125]]
where
  sepEntries : List (List Nat) → List (List Nat)
    | [] => []
    | f :: fs => f :: joinRest fs
  joinRest : List (List Nat) → List (List Nat)
    | [] => []
    | f :: fs => [44] :: f :: joinRest fs

/-! ## Encryption loop (lines 153-203) -/

/-- Lines 168-169 / 177-178: append `k` bytes of value `k`,
`k = 16 - len % 16` (so `1 ≤ k ≤ 16`). -/
def padTail (buffer : List Nat) : List Nat :=
  let padLength := 16 - buffer.length % 16
  buffer ++ List.replicate padLength padLength

/-- The inner `while len(buffer) >= CHUNK_SIZE` loop (lines 161-173): encrypt
window-sized prefixes; the padding branch (lines 166-169) fires only when the
drained buffer is empty *and* the current generator chunk tested falsy. -/
def encDrainCore (Eb : List Nat → List Nat) :
    Nat → CipherState → List Nat → Bool → CipherState × List Nat × List Nat
  | 0, st, buffer, _ => (st, [], buffer)
  | fuel + 1, st, buffer, chunkEmpty =>
    if CHUNK_SIZE ≤ buffer.length then
      let toEncrypt := buffer.take CHUNK_SIZE
      let rest := buffer.drop CHUNK_SIZE
      let toEncrypt := if rest.isEmpty && chunkEmpty then padTail toEncrypt else toEncrypt
      let u := encUpdate Eb st toEncrypt
      let r := encDrainCore Eb fuel u.1 rest chunkEmpty
      (r.1, u.2 ++ r.2.1, r.2.2)
    else (st, [], buffer)

/-- The outer `for chunk in json_chunks()` loop (lines 159-173): extend the
accumulation buffer with each chunk, then drain full windows.  Returns the
final cipher state, the ciphertext written to the temp file so far, and the
remaining buffer. -/
def encFold (Eb : List Nat → List Nat) :
    CipherState → List Nat → List (List Nat) → CipherState × List Nat × List Nat
  | st, buffer, [] => (st, [], buffer)
  | st, buffer, c :: cs =>
    let buf := buffer ++ c
    let r1 := encDrainCore Eb buf.length st buf c.isEmpty
    let r2 := encFold Eb r1.1 r1.2.2 cs
    (r2.1, r1.2.1 ++ r2.2.1, r2.2.2)

/-- The final-file copy loop (lines 195-200) reads the temp file back in
`CHUNK_SIZE` pieces; each piece is one `write` to the destination. -/
def chunksOfCore : Nat → List Nat → List (List Nat)
  | 0, _ => []
  | fuel + 1, s =>
    if s.isEmpty then []
    else s.take CHUNK_SIZE :: chunksOfCore fuel (s.drop CHUNK_SIZE)

/-- `encrypt_json` (lines 109-203).  Parameters: `Eb` the keyed AES block
permutation, `hmacF` the HMAC-SHA256 digest of a key and a message, `deriveKey`
the PBKDF2 derivation (line 85-93), `data` the mapping (one serialized fragment
per entry), the optional password / GIF key sources, and the fresh `salt` and
`iv` (the `os.urandom` results of lines 127-129).  On success the result is the
final content of the destination file together with the list of the successive
`write` calls made on the destination file handle (lines 188-200):
`b'pwd'`, salt, iv, HMAC digest, the 8-byte big-endian ciphertext length, then
each copied ciphertext piece. -/
def encryptWithMaterial (Eb hmacF deriveKey : List Nat → List Nat → List Nat)
    (data : List (List Nat)) (material salt iv : List Nat) :
    Except CodecError (List Nat × List (List Nat)) :=
    let key := deriveKey material salt
    if key.length = 32 then
      if iv.length = 16 then
        let r := encFold (Eb key) ⟨iv, []⟩ [] (jsonChunks data)
        let ctE : Except CodecError (List Nat) :=
          if r.2.2.isEmpty then .ok r.2.1
          else
            let u := encUpdate (Eb key) r.1 (padTail r.2.2)
            match ctxFinalize u.1 with
            | .error e => .error e
            | .ok fin => .ok (r.2.1 ++ u.2 ++ fin)
        match ctE with
        | .error e => .error e
        | .ok ct =>
          let digest := hmacF key ct
          let lenBytes := toBytesBE 8 ct.length
          .ok (methodTag ++ (salt ++ (iv ++ (digest ++ (lenBytes ++ ct)))),
               [methodTag, salt, iv, digest, lenBytes] ++ chunksOfCore ct.length ct)
      else .error .invalidIVSize
    else .error .invalidKeySize

/-- `encrypt_json` (lines 109-203): key-source validation and resolution
(lines 117-124), then the encryption pipeline under the resolved material. -/
def encrypt_json (Eb hmacF deriveKey : List Nat → List Nat → List Nat)
    (data : List (List Nat)) (password gifBytes : Option (List Nat))
    (salt iv : List Nat) : Except CodecError (List Nat × List (List Nat)) :=
  match resolveMaterial password gifBytes with
  | .error e => .error e
  | .ok material => encryptWithMaterial Eb hmacF deriveKey data material salt iv

/-! ## Decryption (lines 205-277) -/

/-- The `while remaining > 0` read loop (lines 254-263): request
`min(CHUNK_SIZE, remaining)` bytes; a read at end-of-file returns what is
available, and an empty read breaks the loop. -/
def readChunksCore : Nat → List Nat → Nat → List (List Nat)
  | 0, _, _ => []
  | fuel + 1, s, remaining =>
    if remaining = 0 then []
    else
      let chunk := s.take (min CHUNK_SIZE remaining)
      if chunk.isEmpty then []
      else chunk :: readChunksCore fuel (s.drop chunk.length) (remaining - chunk.length)

/-- Per-chunk `decryptor.update` calls of the read loop, accumulating the
decrypted bytes in order. -/
def decChunks (Db : List Nat → List Nat) :
    CipherState → List (List Nat) → CipherState × List Nat
  | st, [] => (st, [])
  | st, c :: cs =>
    let u := decUpdate Db st c
    let r := decChunks Db u.1 cs
    (r.1, u.2 ++ r.2)

/-- `decrypt_json` up to (and including) the unpadding step (lines 205-274):
returns the unpadded plaintext bytes handed to `json.loads`.  Field reads
mirror lines 222-227 (`f.read` returns short data near end-of-file), the
method check is line 230, key derivation line 237, cipher construction lines
243-248, the HMAC-verify-and-decrypt loop lines 250-263, the comparison line
266, `finalize` line 270, and the unpad lines 272-274 (`decrypted_data[-1]` on
an empty buffer raises `IndexError`; Python's `data[:-k]` is empty both for
`k = 0` and for `k ≥ len(data)`). -/
def decryptWithMaterial (Db hmacF deriveKey : List Nat → List Nat → List Nat)
    (material : List Nat) (file : List Nat) : Except CodecError (List Nat) :=
    let method := file.take 3
    let salt := (file.drop 3).take 32
    let iv := (file.drop 35).take 16
    let storedHmac := (file.drop 51).take 32
    let dataLength := fromBytesBE ((file.drop 83).take 8)
    if method = methodTag then
      let key := deriveKey material salt
      if key.length = 32 then
        if iv.length = 16 then
          let ctBytes := file.drop 91
          let chunks := readChunksCore (ctBytes.length + 1) ctBytes dataLength
          let r := decChunks (Db key) ⟨iv, []⟩ chunks
          let digest := hmacF key chunks.flatten
          if digest = storedHmac then
            match ctxFinalize r.1 with
            | .error e => .error e
            | .ok fin =>
              let decrypted := r.2 ++ fin
              match decrypted.getLast? with
              | none => .error .indexedEmpty
              | some padLength =>
                .ok (if padLength = 0 then []
                     else decrypted.take (decrypted.length - padLength))
          else .error .authenticationError
        else .error .invalidIVSize
      else .error .invalidKeySize
    else .error .unsupportedMethod

/-- `decrypt_json` up to the unpadding step: key-source validation and
resolution (lines 212-219), then the pipeline under the resolved material. -/
def decrypt_core (Db hmacF deriveKey : List Nat → List Nat → List Nat)
    (password gifBytes : Option (List Nat)) (file : List Nat) :
    Except CodecError (List Nat) :=
  match resolveMaterial password gifBytes with
  | .error e => .error e
  | .ok material => decryptWithMaterial Db hmacF deriveKey material file

/-- `decrypt_json` (lines 205-277): the byte-level pipeline followed by
`bytes(...).decode('utf-8')` + `json.loads`, abstracted as `loads`. -/
def decrypt_json {J : Type} (Db hmacF deriveKey : List Nat → List Nat → List Nat)
    (loads : List Nat → Option J) (password gifBytes : Option (List Nat))
    (file : List Nat) : Except CodecError J :=
  match decrypt_core Db hmacF deriveKey password gifBytes file with
  | .error e => .error e
  | .ok unpadded =>
    match loads unpadded with
    | some j => .ok j
    | none => .error .malformedPlaintext

/-! ## Destination-file write trace (lines 186-200)

`open(output_file, 'wb')` truncates the destination, after which each `write`
appends.  `destStates old writes` is the sequence of contents an observer of
the destination path can see: the old content, then the empty truncated file,
then each partial prefix, ending with the full container. -/

def statesFrom (cur : List Nat) : List (List Nat) → List (List Nat)
  | [] => [cur]
  | w :: ws => cur :: statesFrom (cur ++ w) ws

def destStates (old : List Nat) (writes : List (List Nat)) : List (List Nat) :=
  old :: statesFrom [] writes

theorem encrypt_json_resolved (Eb hmacF deriveKey : List Nat → List Nat → List Nat)
    (data : List (List Nat)) (password gifBytes : Option (List Nat))
    (salt iv material : List Nat)
    (hres : resolveMaterial password gifBytes = .ok material) :
    encrypt_json Eb hmacF deriveKey data password gifBytes salt iv =
      encryptWithMaterial Eb hmacF deriveKey data material salt iv := by
  unfold encrypt_json
  rw [hres]

theorem decrypt_core_resolved (Db hmacF deriveKey : List Nat → List Nat → List Nat)
    (password gifBytes : Option (List Nat)) (file material : List Nat)
    (hres : resolveMaterial password gifBytes = .ok material) :
    decrypt_core Db hmacF deriveKey password gifBytes file =
      decryptWithMaterial Db hmacF deriveKey material file := by
  unfold decrypt_core
  rw [hres]

/-! ## General list helpers -/

theorem take_append_exact {l₁ l₂ : List Nat} {n : Nat} (h : l₁.length = n) :
    (l₁ ++ l₂).take n = l₁ := by
  subst h; exact List.take_left l₁ l₂

theorem drop_append_exact {l₁ l₂ : List Nat} {n : Nat} (h : l₁.length = n) :
    (l₁ ++ l₂).drop n = l₂ := by
  subst h; exact List.drop_left l₁ l₂

theorem set_append_right (l₁ l₂ : List Nat) (n v : Nat) (h : l₁.length ≤ n) :
    (l₁ ++ l₂).set n v = l₁ ++ l₂.set (n - l₁.length) v := by
  induction l₁ generalizing n with
  | nil => simp
  | cons x xs ih =>
    cases n with
    | zero => simp at h
    | succ m =>
      simp only [List.cons_append, List.set, List.length_cons, Nat.succ_sub_succ]
      exact congrArg (x :: ·) (ih m (by simpa using h))

theorem set_append_left (l₁ l₂ : List Nat) (n v : Nat) (h : n < l₁.length) :
    (l₁ ++ l₂).set n v = l₁.set n v ++ l₂ := by
  induction l₁ generalizing n with
  | nil => simp at h
  | cons x xs ih =>
    cases n with
    | zero => simp
    | succ m =>
      simp only [List.cons_append, List.set]
      exact congrArg (x :: ·) (ih m (by simpa using h))

theorem getD_append_right (l₁ l₂ : List Nat) (n d : Nat) (h : l₁.length ≤ n) :
    (l₁ ++ l₂).getD n d = l₂.getD (n - l₁.length) d := by
  induction l₁ generalizing n with
  | nil => simp
  | cons x xs ih =>
    cases n with
    | zero => simp at h
    | succ m =>
      simpa using ih m (by simpa using h)

theorem getD_set_self (l : List Nat) (n v d : Nat) (h : n < l.length) :
    (l.set n v).getD n d = v := by
  induction l generalizing n with
  | nil => simp at h
  | cons x xs ih =>
    cases n with
    | zero => simp
    | succ m => simpa using ih m (by simpa using h)

theorem set_ne_of_getD_ne (l : List Nat) (n v : Nat) (h : n < l.length)
    (hv : v ≠ l.getD n 0) : l.set n v ≠ l := by
  intro he
  exact hv (by rw [← he, getD_set_self l n v 0 h])

theorem xor_two_pow_ne (x b : Nat) : x ^^^ 2 ^ b ≠ x := by
  intro h
  have h2 : x ^^^ (x ^^^ 2 ^ b) = x ^^^ x := by rw [h]
  rw [← Nat.xor_assoc, Nat.xor_self, Nat.zero_xor] at h2
  exact absurd h2 (by positivity : (0 : Nat) < 2 ^ b).ne'

theorem xorBytes_length (a b : List Nat) : (xorBytes a b).length = min a.length b.length := by
  simp [xorBytes]

theorem xorBytes_cancel (a : List Nat) : ∀ b : List Nat, b.length ≤ a.length →
    xorBytes a (xorBytes a b) = b := by
  induction a with
  | nil =>
    intro b hb
    have : b = [] := List.eq_nil_of_length_eq_zero (Nat.le_zero.mp (by simpa using hb))
    simp [this, xorBytes]
  | cons x xs ih =>
    intro b hb
    cases b with
    | nil => simp [xorBytes]
    | cons y ys =>
      simp only [xorBytes, List.zipWith_cons_cons, List.cons.injEq]
      refine ⟨?_, ih ys (by simpa using hb)⟩
      show x ^^^ (x ^^^ y) = y
      rw [← Nat.xor_assoc, Nat.xor_self, Nat.zero_xor]

/-! ## CBC cipher lemmas -/

theorem cbcEncCore_nil (Eb : List Nat → List Nat) (f : Nat) (prev : List Nat) :
    cbcEncCore Eb f prev [] = ⟨prev, [], []⟩ := by
  cases f <;> simp [cbcEncCore]

theorem cbcDecCore_nil (Db : List Nat → List Nat) (f : Nat) (prev : List Nat) :
    cbcDecCore Db f prev [] = ⟨prev, [], []⟩ := by
  cases f <;> simp [cbcDecCore]

theorem cbcEncCore_stop (Eb : List Nat → List Nat) (f : Nat) (prev d : List Nat)
    (h : d.length < 16) : cbcEncCore Eb f prev d = ⟨prev, [], d⟩ := by
  cases f with
  | zero => rfl
  | succ f => rw [cbcEncCore, if_neg (by omega)]

theorem cbcDecCore_stop (Db : List Nat → List Nat) (f : Nat) (prev d : List Nat)
    (h : d.length < 16) : cbcDecCore Db f prev d = ⟨prev, [], d⟩ := by
  cases f with
  | zero => rfl
  | succ f => rw [cbcDecCore, if_neg (by omega)]

theorem cbcEncCore_step (Eb : List Nat → List Nat) (f : Nat) (prev d : List Nat)
    (h : 16 ≤ d.length) :
    cbcEncCore Eb (f + 1) prev d =
      ⟨(cbcEncCore Eb f (Eb (xorBytes prev (d.take 16))) (d.drop 16)).prev,
       Eb (xorBytes prev (d.take 16)) ++
         (cbcEncCore Eb f (Eb (xorBytes prev (d.take 16))) (d.drop 16)).out,
       (cbcEncCore Eb f (Eb (xorBytes prev (d.take 16))) (d.drop 16)).rest⟩ := by
  rw [cbcEncCore, if_pos h]

theorem cbcDecCore_step (Db : List Nat → List Nat) (f : Nat) (prev d : List Nat)
    (h : 16 ≤ d.length) :
    cbcDecCore Db (f + 1) prev d =
      ⟨(cbcDecCore Db f (d.take 16) (d.drop 16)).prev,
       xorBytes prev (Db (d.take 16)) ++ (cbcDecCore Db f (d.take 16) (d.drop 16)).out,
       (cbcDecCore Db f (d.take 16) (d.drop 16)).rest⟩ := by
  rw [cbcDecCore, if_pos h]

/-- On block-aligned input with a full-size chaining block, CBC encryption
consumes everything, emits output of the same length, and keeps a full-size
chaining block. -/
theorem cbcEncCore_aligned (Eb : List Nat → List Nat)
    (hEb : ∀ blk : List Nat, blk.length = 16 → (Eb blk).length = 16) :
    ∀ (fuel : Nat) (prev d : List Nat), d.length ≤ fuel → d.length % 16 = 0 →
      prev.length = 16 →
      (cbcEncCore Eb fuel prev d).rest = [] ∧
      (cbcEncCore Eb fuel prev d).out.length = d.length ∧
      (cbcEncCore Eb fuel prev d).prev.length = 16 := by
  intro fuel
  induction fuel with
  | zero =>
    intro prev d hf hmod hp
    have hd : d = [] := List.eq_nil_of_length_eq_zero (Nat.le_zero.mp hf)
    subst hd
    simp [cbcEncCore_nil, hp]
  | succ f ih =>
    intro prev d hf hmod hp
    by_cases h16 : 16 ≤ d.length
    · have htake : (d.take 16).length = 16 := by simp [List.length_take]; omega
      have hxor : (xorBytes prev (d.take 16)).length = 16 := by
        rw [xorBytes_length, hp, htake]; simp
      have hc : (Eb (xorBytes prev (d.take 16))).length = 16 := hEb _ hxor
      have hdrop : (d.drop 16).length = d.length - 16 := by simp
      have hrec := ih (Eb (xorBytes prev (d.take 16))) (d.drop 16)
        (by omega) (by omega) hc
      rw [cbcEncCore_step Eb f prev d h16]
      refine ⟨hrec.1, ?_, hrec.2.2⟩
      rw [show (⟨_, Eb (xorBytes prev (d.take 16)) ++
            (cbcEncCore Eb f (Eb (xorBytes prev (d.take 16))) (d.drop 16)).out, _⟩ :
            BlockRun).out = Eb (xorBytes prev (d.take 16)) ++
            (cbcEncCore Eb f (Eb (xorBytes prev (d.take 16))) (d.drop 16)).out from rfl]
      rw [List.length_append, hc, hrec.2.1, hdrop]
      omega
    · have hd : d = [] := List.eq_nil_of_length_eq_zero (by omega)
      subst hd
      simp [cbcEncCore_nil, hp]

/-- CBC decryption inverts CBC encryption on block-aligned input, consuming
all of the ciphertext. -/
theorem cbcRoundTrip (Eb Db : List Nat → List Nat)
    (hEb : ∀ blk : List Nat, blk.length = 16 → (Eb blk).length = 16)
    (hDb : ∀ blk : List Nat, blk.length = 16 → Db (Eb blk) = blk) :
    ∀ (f g : Nat) (prev pt : List Nat), pt.length ≤ f → pt.length ≤ g →
      pt.length % 16 = 0 → prev.length = 16 →
      (cbcDecCore Db g prev (cbcEncCore Eb f prev pt).out).out = pt ∧
      (cbcDecCore Db g prev (cbcEncCore Eb f prev pt).out).rest = [] := by
  intro f
  induction f with
  | zero =>
    intro g prev pt hf hg hmod hp
    have hd : pt = [] := List.eq_nil_of_length_eq_zero (Nat.le_zero.mp hf)
    subst hd
    rw [cbcEncCore_nil]
    simp [cbcDecCore_nil]
  | succ f ih =>
    intro g prev pt hf hg hmod hp
    by_cases h16 : 16 ≤ pt.length
    · obtain ⟨g', rfl⟩ : ∃ g', g = g' + 1 := ⟨g - 1, by omega⟩
      have htake16 : (pt.take 16).length = 16 := by simp [List.length_take]; omega
      have hblklen : (xorBytes prev (pt.take 16)).length = 16 := by
        rw [xorBytes_length, hp, htake16]; simp
      have hclen : (Eb (xorBytes prev (pt.take 16))).length = 16 := hEb _ hblklen
      rw [cbcEncCore_step Eb f prev pt h16]
      rw [show (⟨_, Eb (xorBytes prev (pt.take 16)) ++
            (cbcEncCore Eb f (Eb (xorBytes prev (pt.take 16))) (pt.drop 16)).out, _⟩ :
            BlockRun).out = Eb (xorBytes prev (pt.take 16)) ++
            (cbcEncCore Eb f (Eb (xorBytes prev (pt.take 16))) (pt.drop 16)).out from rfl]
      have hctlen : 16 ≤ (Eb (xorBytes prev (pt.take 16)) ++
          (cbcEncCore Eb f (Eb (xorBytes prev (pt.take 16))) (pt.drop 16)).out).length := by
        rw [List.length_append, hclen]; omega
      rw [cbcDecCore_step Db g' prev _ hctlen]
      rw [take_append_exact hclen, drop_append_exact hclen]
      have hDbc : Db (Eb (xorBytes prev (pt.take 16))) = xorBytes prev (pt.take 16) :=
        hDb _ hblklen
      have hxorc : xorBytes prev (Db (Eb (xorBytes prev (pt.take 16)))) = pt.take 16 := by
        rw [hDbc]
        exact xorBytes_cancel prev (pt.take 16) (by rw [htake16, hp])
      have hrec := ih g' (Eb (xorBytes prev (pt.take 16))) (pt.drop 16)
        (by simp; omega) (by simp; omega) (by simp; omega) hclen
      refine ⟨?_, hrec.2⟩
      rw [show ∀ a b c : List Nat, (⟨a, xorBytes prev (Db (Eb (xorBytes prev (pt.take 16)))) ++ b, c⟩ :
            BlockRun).out = xorBytes prev (Db (Eb (xorBytes prev (pt.take 16)))) ++ b from
            fun a b c => rfl]
      rw [hxorc, hrec.1, List.take_append_drop]
    · have hd : pt = [] := List.eq_nil_of_length_eq_zero (by omega)
      subst hd
      rw [cbcEncCore_nil]
      simp [cbcDecCore_nil]

/-! ## Big-endian field lemmas -/

theorem toBytesBE_length : ∀ k v, (toBytesBE k v).length = k := by
  intro k
  induction k with
  | zero => intro v; rfl
  | succ n ih => intro v; simp [toBytesBE, ih]

theorem fromBytesBE_concat (l : List Nat) (b : Nat) :
    fromBytesBE (l ++ [b]) = fromBytesBE l * 256 + b := by
  simp [fromBytesBE, List.foldl_append]

theorem fromBytesBE_toBytesBE : ∀ k v, v < 256 ^ k → fromBytesBE (toBytesBE k v) = v := by
  intro k
  induction k with
  | zero =>
    intro v hv
    interval_cases v
    rfl
  | succ n ih =>
    intro v hv
    rw [toBytesBE, fromBytesBE_concat, ih (v / 256) ?_]
    · rw [Nat.mul_comm]
      exact Nat.div_add_mod v 256
    · rw [Nat.div_lt_iff_lt_mul (by norm_num)]
      calc v < 256 ^ (n + 1) := hv
        _ = 256 ^ n * 256 := by rw [Nat.pow_succ]

/-! ## Read-loop and copy-loop lemmas -/

theorem isEmpty_false_of_length_pos {l : List Nat} (h : 0 < l.length) : l.isEmpty = false := by
  cases l with
  | nil => simp at h
  | cons a as => rfl

theorem length_pos_of_isEmpty_false {l : List Nat} (h : l.isEmpty = false) : 0 < l.length := by
  cases l with
  | nil => simp at h
  | cons a as => simp

theorem readChunksCore_nil_src (f n : Nat) : readChunksCore f [] n = [] := by
  cases f with
  | zero => rfl
  | succ f =>
    rw [readChunksCore]
    by_cases h : n = 0
    · rw [if_pos h]
    · rw [if_neg h]
      simp

/-- A stream of at most one window and declared length equal to its size is
read back as a single chunk. -/
theorem readChunksCore_single (s : List Nat) (hpos : 0 < s.length)
    (hle : s.length ≤ CHUNK_SIZE) :
    readChunksCore (s.length + 1) s s.length = [s] := by
  rw [readChunksCore]
  rw [if_neg (by omega)]
  have hmin : min CHUNK_SIZE s.length = s.length := by omega
  rw [hmin, List.take_length]
  rw [if_neg (by rw [isEmpty_false_of_length_pos hpos]; simp)]
  rw [List.drop_length, Nat.sub_self]
  rw [readChunksCore_nil_src]


/-- The read loop returns exactly the first `n` bytes of the stream (split
across window-sized chunks) when at least `n` bytes are available. -/
theorem readChunksCore_flatten : ∀ (f : Nat) (s : List Nat) (n : Nat),
    n ≤ s.length → s.length < f → (readChunksCore f s n).flatten = s.take n := by
  intro f
  induction f with
  | zero => intro s n hn hf; omega
  | succ f ih =>
    intro s n hn hf
    rw [readChunksCore]
    by_cases h0 : n = 0
    · subst h0; simp
    · rw [if_neg h0]
      have hC : 1 ≤ CHUNK_SIZE := by norm_num [CHUNK_SIZE]
      have hchunklen : (s.take (min CHUNK_SIZE n)).length = min CHUNK_SIZE n := by
        rw [List.length_take]; omega
      rw [if_neg (by rw [isEmpty_false_of_length_pos (by omega)]; simp)]
      rw [List.flatten_cons, hchunklen]
      rw [ih (s.drop (min CHUNK_SIZE n)) (n - min CHUNK_SIZE n)
        (by simp; omega) (by simp; omega)]
      rw [← List.take_add]
      congr 1
      omega

/-- Bytes beyond the first `n` do not change what the read loop returns. -/
theorem readChunksCore_append_right : ∀ (f₁ f₂ : Nat) (s g : List Nat) (n : Nat),
    n ≤ s.length → s.length < f₁ → s.length < f₂ →
    readChunksCore f₁ (s ++ g) n = readChunksCore f₂ s n := by
  intro f₁
  induction f₁ with
  | zero => intro f₂ s g n hn h1 h2; omega
  | succ f₁ ih =>
    intro f₂ s g n hn h1 h2
    obtain ⟨f₂', rfl⟩ : ∃ k, f₂ = k + 1 := ⟨f₂ - 1, by omega⟩
    rw [readChunksCore, readChunksCore]
    by_cases h0 : n = 0
    · rw [if_pos h0, if_pos h0]
    · rw [if_neg h0, if_neg h0]
      have hC : 1 ≤ CHUNK_SIZE := by norm_num [CHUNK_SIZE]
      have hm : min CHUNK_SIZE n ≤ s.length := by omega
      rw [List.take_append_of_le_length hm]
      have hchunklen : (s.take (min CHUNK_SIZE n)).length = min CHUNK_SIZE n := by
        rw [List.length_take]; omega
      rw [if_neg (by rw [isEmpty_false_of_length_pos (by omega)]; simp)]
      rw [List.drop_append_of_le_length (by rw [hchunklen]; omega)]
      show _ = (if (s.take (min CHUNK_SIZE n)).isEmpty = true then ([] : List (List Nat))
        else s.take (min CHUNK_SIZE n) ::
          readChunksCore f₂' (s.drop (s.take (min CHUNK_SIZE n)).length)
            (n - (s.take (min CHUNK_SIZE n)).length))
      rw [if_neg (by rw [isEmpty_false_of_length_pos (by omega)]; simp)]
      exact congrArg (List.cons _)
        (ih f₂' (s.drop (s.take (min CHUNK_SIZE n)).length) g (n - (s.take (min CHUNK_SIZE n)).length)
          (by rw [hchunklen]; simp; omega) (by rw [hchunklen]; simp; omega)
          (by rw [hchunklen]; simp; omega))

theorem chunksOfCore_flatten : ∀ (f : Nat) (s : List Nat), s.length ≤ f →
    (chunksOfCore f s).flatten = s := by
  intro f
  induction f with
  | zero =>
    intro s h
    have hs : s = [] := List.eq_nil_of_length_eq_zero (Nat.le_zero.mp h)
    subst hs; rfl
  | succ f ih =>
    intro s h
    rw [chunksOfCore]
    by_cases he : s.isEmpty = true
    · rw [if_pos he]
      have hs : s = [] := by cases s with | nil => rfl | cons a as => simp at he
      subst hs; rfl
    · rw [if_neg he]
      have hC : 1 ≤ CHUNK_SIZE := by norm_num [CHUNK_SIZE]
      have hpos : 0 < s.length := length_pos_of_isEmpty_false (by simpa using he)
      rw [List.flatten_cons, ih (s.drop CHUNK_SIZE) (by simp; omega)]
      exact List.take_append_drop _ s

/-! ## Container parsing -/

/-- The field reads of `decrypt_json` (lines 223-227) recover exactly the
fields written at lines 188-192, at offsets 0/3/35/51/83/91. -/
theorem container_fields (salt iv storedHmac lenB tail : List Nat)
    (hs : salt.length = 32) (hiv : iv.length = 16) (hst : storedHmac.length = 32)
    (hlb : lenB.length = 8) :
    (methodTag ++ (salt ++ (iv ++ (storedHmac ++ (lenB ++ tail))))).take 3 = methodTag ∧
    ((methodTag ++ (salt ++ (iv ++ (storedHmac ++ (lenB ++ tail))))).drop 3).take 32 = salt ∧
    ((methodTag ++ (salt ++ (iv ++ (storedHmac ++ (lenB ++ tail))))).drop 35).take 16 = iv ∧
    ((methodTag ++ (salt ++ (iv ++ (storedHmac ++ (lenB ++ tail))))).drop 51).take 32 = storedHmac ∧
    ((methodTag ++ (salt ++ (iv ++ (storedHmac ++ (lenB ++ tail))))).drop 83).take 8 = lenB ∧
    (methodTag ++ (salt ++ (iv ++ (storedHmac ++ (lenB ++ tail))))).drop 91 = tail := by
  have h3 : (methodTag ++ (salt ++ (iv ++ (storedHmac ++ (lenB ++ tail))))).drop 3 =
      salt ++ (iv ++ (storedHmac ++ (lenB ++ tail))) :=
    drop_append_exact (show methodTag.length = 3 from rfl)
  have h35 : (methodTag ++ (salt ++ (iv ++ (storedHmac ++ (lenB ++ tail))))).drop 35 =
      iv ++ (storedHmac ++ (lenB ++ tail)) := by
    rw [show (35 : Nat) = 3 + 32 from rfl, ← List.drop_drop, h3]
    exact drop_append_exact hs
  have h51 : (methodTag ++ (salt ++ (iv ++ (storedHmac ++ (lenB ++ tail))))).drop 51 =
      storedHmac ++ (lenB ++ tail) := by
    rw [show (51 : Nat) = 35 + 16 from rfl, ← List.drop_drop, h35]
    exact drop_append_exact hiv
  have h83 : (methodTag ++ (salt ++ (iv ++ (storedHmac ++ (lenB ++ tail))))).drop 83 =
      lenB ++ tail := by
    rw [show (83 : Nat) = 51 + 32 from rfl, ← List.drop_drop, h51]
    exact drop_append_exact hst
  have h91 : (methodTag ++ (salt ++ (iv ++ (storedHmac ++ (lenB ++ tail))))).drop 91 = tail := by
    rw [show (91 : Nat) = 83 + 8 from rfl, ← List.drop_drop, h83]
    exact drop_append_exact hlb
  exact ⟨take_append_exact rfl,
    by rw [h3]; exact take_append_exact hs,
    by rw [h35]; exact take_append_exact hiv,
    by rw [h51]; exact take_append_exact hst,
    by rw [h83]; exact take_append_exact hlb,
    h91⟩

/-- `decrypt_json` on a file with the header layout of §6, reduced past the
field parsing, the method check, and the cipher construction. -/
theorem decrypt_core_parsed (Db hmacF deriveKey : List Nat → List Nat → List Nat)
    (password gifBytes : Option (List Nat))
    (material salt iv storedHmac lenB tail : List Nat)
    (hres : resolveMaterial password gifBytes = .ok material)
    (hs : salt.length = 32) (hiv : iv.length = 16) (hst : storedHmac.length = 32)
    (hlb : lenB.length = 8)
    (hk : (deriveKey material salt).length = 32) :
    decrypt_core Db hmacF deriveKey password gifBytes
        (methodTag ++ (salt ++ (iv ++ (storedHmac ++ (lenB ++ tail))))) =
      (if hmacF (deriveKey material salt)
            (readChunksCore (tail.length + 1) tail (fromBytesBE lenB)).flatten = storedHmac then
         match ctxFinalize (decChunks (Db (deriveKey material salt)) ⟨iv, []⟩
             (readChunksCore (tail.length + 1) tail (fromBytesBE lenB))).1 with
         | .error e => .error e
         | .ok fin =>
           match ((decChunks (Db (deriveKey material salt)) ⟨iv, []⟩
               (readChunksCore (tail.length + 1) tail (fromBytesBE lenB))).2 ++ fin).getLast? with
           | none => .error .indexedEmpty
           | some padLength =>
             .ok (if padLength = 0 then []
                  else ((decChunks (Db (deriveKey material salt)) ⟨iv, []⟩
                      (readChunksCore (tail.length + 1) tail (fromBytesBE lenB))).2 ++ fin).take
                    (((decChunks (Db (deriveKey material salt)) ⟨iv, []⟩
                      (readChunksCore (tail.length + 1) tail (fromBytesBE lenB))).2 ++ fin).length
                      - padLength))
       else .error .authenticationError) := by
  obtain ⟨hf1, hf2, hf3, hf4, hf5, hf6⟩ :=
    container_fields salt iv storedHmac lenB tail hs hiv hst hlb
  rw [decrypt_core_resolved Db hmacF deriveKey password gifBytes _ material hres]
  simp only [decryptWithMaterial]
  simp only [hf1, hf2, hf3, hf4, hf5, hf6, hk, hiv]
  simp

/-- Every successful `encrypt_json` call with a password key source produced
its container and its write trace in the §6 layout. -/
theorem encrypt_ok_structure (Eb hmacF deriveKey : List Nat → List Nat → List Nat)
    (data : List (List Nat)) (p salt iv C : List Nat) (W : List (List Nat))
    (hE : encrypt_json Eb hmacF deriveKey data (some p) none salt iv = .ok (C, W)) :
    (deriveKey p salt).length = 32 ∧ iv.length = 16 ∧
    ∃ ct : List Nat,
      C = methodTag ++ (salt ++ (iv ++ (hmacF (deriveKey p salt) ct ++
        (toBytesBE 8 ct.length ++ ct)))) ∧
      W = [methodTag, salt, iv, hmacF (deriveKey p salt) ct, toBytesBE 8 ct.length] ++
        chunksOfCore ct.length ct := by
  rw [encrypt_json_resolved Eb hmacF deriveKey data (some p) none salt iv p rfl] at hE
  simp only [encryptWithMaterial] at hE
  split at hE
  next hkey =>
    split at hE
    next hivlen =>
      split at hE
      next e he => exact absurd hE (by simp)
      next ct hct =>
        rw [Except.ok.injEq, Prod.mk.injEq] at hE
        exact ⟨hkey, hivlen, ct, hE.1.symm, hE.2.symm⟩
    next hivlen => exact absurd hE (by simp)
  next hkey => exact absurd hE (by simp)

/-- If the HMAC recomputed over the stored ciphertext does not match the
stored tag, `decrypt_json` fails with the line-267 `ValueError` and returns
nothing else. -/
theorem decrypt_core_auth_mismatch (Db hmacF deriveKey : List Nat → List Nat → List Nat)
    (password gifBytes : Option (List Nat)) (material salt iv storedHmac ct : List Nat)
    (hres : resolveMaterial password gifBytes = .ok material)
    (hs : salt.length = 32) (hiv : iv.length = 16) (hst : storedHmac.length = 32)
    (hc : ct.length < 256 ^ 8)
    (hk : (deriveKey material salt).length = 32)
    (hne : hmacF (deriveKey material salt) ct ≠ storedHmac) :
    decrypt_core Db hmacF deriveKey password gifBytes
        (methodTag ++ (salt ++ (iv ++ (storedHmac ++ (toBytesBE 8 ct.length ++ ct))))) =
      .error .authenticationError := by
  rw [decrypt_core_parsed Db hmacF deriveKey password gifBytes material salt iv storedHmac
    (toBytesBE 8 ct.length) ct hres hs hiv hst (toBytesBE_length 8 ct.length) hk]
  rw [fromBytesBE_toBytesBE 8 ct.length hc]
  rw [readChunksCore_flatten (ct.length + 1) ct ct.length le_rfl (by omega)]
  rw [List.take_length]
  rw [if_neg hne]

/-- If the HMAC matches and the decrypted stream is nonempty with last byte
`k ≠ 0`, `decrypt_json` strips the last `k` bytes without any validation of
`k` and returns the rest. -/
theorem decrypt_core_unpad (Db hmacF deriveKey : List Nat → List Nat → List Nat)
    (password gifBytes : Option (List Nat))
    (material salt iv storedHmac ct d q : List Nat) (k : Nat)
    (hres : resolveMaterial password gifBytes = .ok material)
    (hs : salt.length = 32) (hiv : iv.length = 16) (hst : storedHmac.length = 32)
    (hc : ct.length < 256 ^ 8)
    (hk : (deriveKey material salt).length = 32)
    (hmatch : hmacF (deriveKey material salt) ct = storedHmac)
    (hdec : decChunks (Db (deriveKey material salt)) ⟨iv, []⟩
        (readChunksCore (ct.length + 1) ct ct.length) = (⟨q, []⟩, d))
    (hlast : d.getLast? = some k) (hk0 : k ≠ 0) :
    decrypt_core Db hmacF deriveKey password gifBytes
        (methodTag ++ (salt ++ (iv ++ (storedHmac ++ (toBytesBE 8 ct.length ++ ct))))) =
      .ok (d.take (d.length - k)) := by
  rw [decrypt_core_parsed Db hmacF deriveKey password gifBytes material salt iv storedHmac
    (toBytesBE 8 ct.length) ct hres hs hiv hst (toBytesBE_length 8 ct.length) hk]
  rw [fromBytesBE_toBytesBE 8 ct.length hc]
  rw [readChunksCore_flatten (ct.length + 1) ct ct.length le_rfl (by omega)]
  rw [List.take_length]
  rw [if_pos hmatch, hdec]
  simp [ctxFinalize, hlast, hk0]

/-! ## Encryption-loop evaluation lemmas -/

theorem encDrainCore_small (Eb : List Nat → List Nat) (f : Nat) (st : CipherState)
    (buffer : List Nat) (flag : Bool) (h : buffer.length < CHUNK_SIZE) :
    encDrainCore Eb f st buffer flag = (st, [], buffer) := by
  cases f with
  | zero => rfl
  | succ f => rw [encDrainCore, if_neg (by omega)]

theorem encDrainCore_succ (Eb : List Nat → List Nat) (f : Nat) (st : CipherState)
    (buffer : List Nat) (chunkEmpty : Bool) :
    encDrainCore Eb (f + 1) st buffer chunkEmpty =
      if CHUNK_SIZE ≤ buffer.length then
        ((encDrainCore Eb f
            (encUpdate Eb st (if (buffer.drop CHUNK_SIZE).isEmpty && chunkEmpty then
              padTail (buffer.take CHUNK_SIZE) else buffer.take CHUNK_SIZE)).1
            (buffer.drop CHUNK_SIZE) chunkEmpty).1,
         (encUpdate Eb st (if (buffer.drop CHUNK_SIZE).isEmpty && chunkEmpty then
            padTail (buffer.take CHUNK_SIZE) else buffer.take CHUNK_SIZE)).2 ++
           (encDrainCore Eb f
             (encUpdate Eb st (if (buffer.drop CHUNK_SIZE).isEmpty && chunkEmpty then
               padTail (buffer.take CHUNK_SIZE) else buffer.take CHUNK_SIZE)).1
             (buffer.drop CHUNK_SIZE) chunkEmpty).2.1,
         (encDrainCore Eb f
           (encUpdate Eb st (if (buffer.drop CHUNK_SIZE).isEmpty && chunkEmpty then
             padTail (buffer.take CHUNK_SIZE) else buffer.take CHUNK_SIZE)).1
           (buffer.drop CHUNK_SIZE) chunkEmpty).2.2)
      else (st, [], buffer) := rfl

/-- Draining a buffer of exactly one full window encrypts the whole buffer in
one `update` call (the padding branch stays off when the current chunk is
nonempty) and leaves the buffer empty. -/
theorem encDrainCore_fullwindow (Eb : List Nat → List Nat) (f : Nat) (st : CipherState)
    (buffer : List Nat) (h : buffer.length = CHUNK_SIZE) :
    encDrainCore Eb (f + 1) st buffer false =
      ((encUpdate Eb st buffer).1, (encUpdate Eb st buffer).2, []) := by
  rw [encDrainCore_succ, if_pos (by omega)]
  rw [List.take_of_length_le (by omega), List.drop_of_length_le (by omega)]
  rw [encDrainCore_small Eb f _ [] false (by norm_num [CHUNK_SIZE])]
  simp

theorem encFold_nil (Eb : List Nat → List Nat) (st : CipherState) (buffer : List Nat) :
    encFold Eb st buffer [] = (st, [], buffer) := rfl

theorem encFold_cons (Eb : List Nat → List Nat) (st : CipherState) (buffer c : List Nat)
    (cs : List (List Nat)) :
    encFold Eb st buffer (c :: cs) =
      ((encFold Eb (encDrainCore Eb (buffer ++ c).length st (buffer ++ c) c.isEmpty).1
          (encDrainCore Eb (buffer ++ c).length st (buffer ++ c) c.isEmpty).2.2 cs).1,
       (encDrainCore Eb (buffer ++ c).length st (buffer ++ c) c.isEmpty).2.1 ++
         (encFold Eb (encDrainCore Eb (buffer ++ c).length st (buffer ++ c) c.isEmpty).1
           (encDrainCore Eb (buffer ++ c).length st (buffer ++ c) c.isEmpty).2.2 cs).2.1,
       (encFold Eb (encDrainCore Eb (buffer ++ c).length st (buffer ++ c) c.isEmpty).1
         (encDrainCore Eb (buffer ++ c).length st (buffer ++ c) c.isEmpty).2.2 cs).2.2) := rfl

/-! ## The window-boundary input

`bigFrag` is the single serialized entry of a mapping with one key `"a"`
whose string value has 1 048 567 `'x'` characters: the bytes of
`json.dumps`'s `"a": "x...x"` fragment (6 + 1048567 + 1 bytes).  The streamed
plaintext `bigStream` is then the open-brace byte, `bigFrag`, and the
close-brace byte: exactly `2 ^ 20` bytes — one full `CHUNK_SIZE` window. -/

def bigFrag : List Nat := [34, 97, 34, 58, 32, 34] ++ List.replicate 1048567 120 ++ [34]

def bigStream : List Nat := [123] ++ bigFrag ++ [125]

theorem bigFrag_length : bigFrag.length = 1048574 := by
  rw [bigFrag, List.length_append, List.length_append, List.length_replicate]
  decide

theorem bigStream_length : bigStream.length = 1048576 := by
  rw [bigStream, List.length_append, List.length_append, bigFrag_length]
  decide

theorem bigStream_def : (([123] ++ bigFrag) ++ [125] : List Nat) = bigStream := rfl


/-! ## Concrete instantiations of the abstract library primitives, used in
closed counterexamples and in the witnesses that discharge hypotheses -/

/-- Identity block permutation (one admissible instantiation of the abstract
AES block-permutation parameter). -/
def idEb : List Nat → List Nat → List Nat := fun _ b => b

/-- Constant digest function (one instantiation of the abstract HMAC-SHA256
parameter; 32-byte output). -/
def cHmac : List Nat → List Nat → List Nat := fun _ _ => List.replicate 32 5

/-- Constant key derivation (one instantiation of the abstract PBKDF2
parameter; 32-byte output, like `dklen=32`). -/
def cDerive : List Nat → List Nat → List Nat := fun _ _ => List.replicate 32 9

def salt0 : List Nat := List.replicate 32 0

def iv0 : List Nat := List.replicate 16 0

/-! ## Evaluating the encryption loop on the window-boundary input -/

theorem encFold_stepNil (Eb : List Nat → List Nat) (st : CipherState)
    (out rest : List Nat) :
    ((encFold Eb ((st, out, rest) : CipherState × List Nat × List Nat).1
        ((st, out, rest) : CipherState × List Nat × List Nat).2.2 []).1,
     ((st, out, rest) : CipherState × List Nat × List Nat).2.1 ++
       (encFold Eb ((st, out, rest) : CipherState × List Nat × List Nat).1
         ((st, out, rest) : CipherState × List Nat × List Nat).2.2 []).2.1,
     (encFold Eb ((st, out, rest) : CipherState × List Nat × List Nat).1
       ((st, out, rest) : CipherState × List Nat × List Nat).2.2 []).2.2) =
      (st, out, rest) := by
  simp [encFold_nil]

theorem encFold_stepConsNilOut (Eb : List Nat → List Nat) (st : CipherState)
    (buf : List Nat) (cs : List (List Nat))
    (res : CipherState × List Nat × List Nat)
    (h : encFold Eb st buf cs = res) :
    ((encFold Eb ((st, ([] : List Nat), buf) : CipherState × List Nat × List Nat).1
        ((st, ([] : List Nat), buf) : CipherState × List Nat × List Nat).2.2 cs).1,
     ((st, ([] : List Nat), buf) : CipherState × List Nat × List Nat).2.1 ++
       (encFold Eb ((st, ([] : List Nat), buf) : CipherState × List Nat × List Nat).1
         ((st, ([] : List Nat), buf) : CipherState × List Nat × List Nat).2.2 cs).2.1,
     (encFold Eb ((st, ([] : List Nat), buf) : CipherState × List Nat × List Nat).1
       ((st, ([] : List Nat), buf) : CipherState × List Nat × List Nat).2.2 cs).2.2) =
      res := by
  simp [h]

/-- The block-cipher run over the full `2 ^ 20`-byte window.  The definition
is irreducible so that unification never attempts to step the fuel through
the million-element stream; all reasoning goes through `bigRun_def` and the
structural CBC lemmas. -/
@[irreducible] def bigRun : BlockRun :=
  cbcEncCore (idEb (cDerive [112] salt0)) bigStream.length iv0 bigStream

theorem bigRun_def :
    bigRun =
      cbcEncCore (idEb (cDerive [112] salt0)) bigStream.length iv0 bigStream := by
  unfold bigRun
  rfl

theorem bigRun_aligned :
    bigRun.rest = [] ∧ bigRun.out.length = bigStream.length ∧
      bigRun.prev.length = 16 := by
  rw [bigRun_def]
  exact cbcEncCore_aligned (idEb (cDerive [112] salt0)) (fun blk hb => hb)
    bigStream.length iv0 bigStream le_rfl (by rw [bigStream_length]) rfl

theorem bigRunOut_length : bigRun.out.length = 1048576 :=
  (bigRun_aligned.2.1).trans bigStream_length

/-! ## Projection helpers (proved once at variables, so that instantiating
them never makes the kernel reduce a projection of a large cipher run) -/

theorem pairFst (a : CipherState) (b : List Nat) :
    ((a, b) : CipherState × List Nat).1 = a := rfl

theorem pairSnd (a : CipherState) (b : List Nat) :
    ((a, b) : CipherState × List Nat).2 = b := rfl

theorem tripFst (a : CipherState) (b c : List Nat) :
    ((a, b, c) : CipherState × List Nat × List Nat).1 = a := rfl

theorem tripSndFst (a : CipherState) (b c : List Nat) :
    ((a, b, c) : CipherState × List Nat × List Nat).2.1 = b := rfl

theorem tripSndSnd (a : CipherState) (b c : List Nat) :
    ((a, b, c) : CipherState × List Nat × List Nat).2.2 = c := rfl

/-- `encryptor.update` on the full `2 ^ 20`-byte window. -/
theorem encUpdate_big :
    encUpdate (idEb (cDerive [112] salt0)) ⟨iv0, []⟩ (([123] ++ bigFrag) ++ [125]) =
      ((⟨bigRun.prev, bigRun.rest⟩ : CipherState), bigRun.out) := by
  rw [bigRun_def]
  simp only [encUpdate, List.nil_append]
  rw [bigStream_def]

theorem encUpdate_big_fst :
    (encUpdate (idEb (cDerive [112] salt0)) ⟨iv0, []⟩ (([123] ++ bigFrag) ++ [125])).1 =
      (⟨bigRun.prev, bigRun.rest⟩ : CipherState) := by
  rw [encUpdate_big, pairFst]

theorem encUpdate_big_snd :
    (encUpdate (idEb (cDerive [112] salt0)) ⟨iv0, []⟩ (([123] ++ bigFrag) ++ [125])).2 =
      bigRun.out := by
  rw [encUpdate_big, pairSnd]

/-- Draining the buffer holding exactly `{`, the serialized entry, and `}`:
one full-window `update`, empty buffer left, dead padding branch not taken
(the chunk `b'}'` is nonempty). -/
theorem encDrain_big :
    encDrainCore (idEb (cDerive [112] salt0))
      (([123] ++ bigFrag) ++ [125] : List Nat).length ⟨iv0, []⟩
      (([123] ++ bigFrag) ++ [125]) ([125] : List Nat).isEmpty =
      ((⟨bigRun.prev, bigRun.rest⟩ : CipherState), bigRun.out, ([] : List Nat)) := by
  have hbuf : (([123] ++ bigFrag) ++ [125] : List Nat).length = CHUNK_SIZE := by
    rw [List.length_append, List.length_append, bigFrag_length]
    decide
  obtain ⟨f, hf⟩ : ∃ f, (([123] ++ bigFrag) ++ [125] : List Nat).length = f + 1 :=
    ⟨(([123] ++ bigFrag) ++ [125] : List Nat).length - 1,
     by rw [hbuf]; norm_num [CHUNK_SIZE]⟩
  rw [show ([125] : List Nat).isEmpty = false from rfl]
  rw [hf, encDrainCore_fullwindow (idEb (cDerive [112] salt0)) f ⟨iv0, []⟩
    (([123] ++ bigFrag) ++ [125]) hbuf]
  rw [encUpdate_big_fst, encUpdate_big_snd]

/-- Running the whole encryption loop on the window-boundary input: the
stream is encrypted as one full window by the inner `while` loop and the
buffer is left empty, so the `if buffer:` padding path (lines 176-181) is
never taken. -/
theorem encFold_big :
    encFold (idEb (cDerive [112] salt0)) ⟨iv0, []⟩ [] (jsonChunks [bigFrag]) =
      ((⟨bigRun.prev, bigRun.rest⟩ : CipherState), bigRun.out, ([] : List Nat)) := by
  have h3 : encFold (idEb (cDerive [112] salt0)) ⟨iv0, []⟩ ([123] ++ bigFrag) [[125]] =
      ((⟨bigRun.prev, bigRun.rest⟩ : CipherState), bigRun.out, ([] : List Nat)) := by
    rw [encFold_cons, encDrain_big]
    exact encFold_stepNil (idEb (cDerive [112] salt0)) ⟨bigRun.prev, bigRun.rest⟩
      bigRun.out []
  have d2 : encDrainCore (idEb (cDerive [112] salt0)) ([123] ++ bigFrag : List Nat).length
      ⟨iv0, []⟩ ([123] ++ bigFrag) bigFrag.isEmpty = (⟨iv0, []⟩, [], [123] ++ bigFrag) :=
    encDrainCore_small _ _ _ _ _
      (by rw [List.length_append, bigFrag_length]; norm_num [CHUNK_SIZE])
  have h2 : encFold (idEb (cDerive [112] salt0)) ⟨iv0, []⟩ [123] [bigFrag, [125]] =
      ((⟨bigRun.prev, bigRun.rest⟩ : CipherState), bigRun.out, ([] : List Nat)) := by
    rw [encFold_cons, d2]
    exact encFold_stepConsNilOut (idEb (cDerive [112] salt0)) ⟨iv0, []⟩
      ([123] ++ bigFrag) [[125]] _ h3
  have d1 : encDrainCore (idEb (cDerive [112] salt0)) ([] ++ [123] : List Nat).length
      ⟨iv0, []⟩ ([] ++ [123]) ([123] : List Nat).isEmpty = (⟨iv0, []⟩, [], [123]) := by
    rw [show ([] ++ [123] : List Nat) = [123] from rfl]
    exact encDrainCore_small _ _ _ _ _ (by norm_num [CHUNK_SIZE])
  rw [show jsonChunks [bigFrag] = [[123], bigFrag, [125]] from rfl]
  rw [encFold_cons, d1]
  exact encFold_stepConsNilOut (idEb (cDerive [112] salt0)) ⟨iv0, []⟩ [123]
    [bigFrag, [125]] _ h2

/-! ## The concrete window-boundary container -/

/-- The container `encrypt_json` writes for the window-boundary mapping:
the untouched (unpadded!) window ciphertext goes after the 91-byte header. -/
def bigContainer : List Nat :=
  methodTag ++ (salt0 ++ (iv0 ++ (List.replicate 32 5 ++
    (toBytesBE 8 bigRun.out.length ++ bigRun.out))))

def bigWrites : List (List Nat) :=
  [methodTag, salt0, iv0, List.replicate 32 5, toBytesBE 8 bigRun.out.length] ++
    chunksOfCore bigRun.out.length bigRun.out

/-- `encrypt_json`'s pipeline when the loop leaves an empty buffer: the
ciphertext is exactly the loop output, and no padding is applied. -/
theorem encryptWithMaterial_eval (Eb hmacF deriveKey : List Nat → List Nat → List Nat)
    (data : List (List Nat)) (material salt iv : List Nat)
    (st : CipherState) (out : List Nat)
    (hk : (deriveKey material salt).length = 32) (hiv : iv.length = 16)
    (hfold : encFold (Eb (deriveKey material salt)) ⟨iv, []⟩ [] (jsonChunks data) =
      (st, out, [])) :
    encryptWithMaterial Eb hmacF deriveKey data material salt iv =
      .ok (methodTag ++ (salt ++ (iv ++ (hmacF (deriveKey material salt) out ++
             (toBytesBE 8 out.length ++ out)))),
           [methodTag, salt, iv, hmacF (deriveKey material salt) out,
             toBytesBE 8 out.length] ++ chunksOfCore out.length out) := by
  simp only [encryptWithMaterial]
  rw [if_pos hk, if_pos hiv, hfold, tripSndSnd st out [], tripSndFst st out [],
    tripFst st out []]
  rw [if_pos (show (([] : List Nat).isEmpty = true) from rfl)]

/-- Encrypting the window-boundary mapping succeeds and emits `bigContainer`:
the serialized plaintext is `2 ^ 20` bytes, the inner loop encrypts it whole,
and no padding is ever applied. -/
theorem encrypt_big :
    encrypt_json idEb cHmac cDerive [bigFrag] (some [112]) none salt0 iv0 =
      .ok (bigContainer, bigWrites) := by
  rw [encrypt_json_resolved idEb cHmac cDerive [bigFrag] (some [112]) none salt0 iv0
    [112] rfl]
  exact encryptWithMaterial_eval idEb cHmac cDerive [bigFrag] [112] salt0 iv0
    ⟨bigRun.prev, bigRun.rest⟩ bigRun.out rfl rfl encFold_big

/-! ## Decrypting the window-boundary container -/

theorem ctxFinalize_nilCarry (prev : List Nat) : ctxFinalize ⟨prev, []⟩ = .ok [] := rfl

theorem decChunks_single_nilCarry (Db : List Nat → List Nat) (prev c : List Nat) :
    decChunks Db ⟨prev, []⟩ [c] =
      ((⟨(cbcDecCore Db c.length prev c).prev,
         (cbcDecCore Db c.length prev c).rest⟩ : CipherState),
       (cbcDecCore Db c.length prev c).out ++ []) := by
  simp only [decChunks, decUpdate, List.nil_append]

/-- Decrypting the window-boundary container with the correct password: the
HMAC check passes, the ciphertext decrypts back to the serialized plaintext,
and the unvalidated unpad step then strips `125` bytes — the value of the
closing-brace byte `b'}'` — even though no padding was ever added. -/
theorem decrypt_big :
    decrypt_core idEb cHmac cDerive (some [112]) none bigContainer =
      .ok (bigStream.take (bigStream.length - 125)) := by
  show decrypt_core idEb cHmac cDerive (some [112]) none
    (methodTag ++ (salt0 ++ (iv0 ++ (List.replicate 32 5 ++
      (toBytesBE 8 bigRun.out.length ++ bigRun.out))))) = _
  rw [decrypt_core_parsed idEb cHmac cDerive (some [112]) none [112] salt0 iv0
    (List.replicate 32 5) (toBytesBE 8 bigRun.out.length) bigRun.out rfl rfl rfl rfl
    (toBytesBE_length 8 bigRun.out.length) rfl]
  rw [fromBytesBE_toBytesBE 8 bigRun.out.length (by rw [bigRunOut_length]; norm_num)]
  rw [readChunksCore_single bigRun.out (by rw [bigRunOut_length]; norm_num)
    (by rw [bigRunOut_length]; norm_num [CHUNK_SIZE])]
  rw [if_pos (show cHmac (cDerive [112] salt0) ([bigRun.out] : List (List Nat)).flatten =
    List.replicate 32 5 from rfl)]
  rw [decChunks_single_nilCarry (idEb (cDerive [112] salt0)) iv0 bigRun.out]
  rw [pairFst ⟨(cbcDecCore (idEb (cDerive [112] salt0)) bigRun.out.length iv0
        bigRun.out).prev,
      (cbcDecCore (idEb (cDerive [112] salt0)) bigRun.out.length iv0 bigRun.out).rest⟩
    ((cbcDecCore (idEb (cDerive [112] salt0)) bigRun.out.length iv0 bigRun.out).out ++ [])]
  rw [pairSnd ⟨(cbcDecCore (idEb (cDerive [112] salt0)) bigRun.out.length iv0
        bigRun.out).prev,
      (cbcDecCore (idEb (cDerive [112] salt0)) bigRun.out.length iv0 bigRun.out).rest⟩
    ((cbcDecCore (idEb (cDerive [112] salt0)) bigRun.out.length iv0 bigRun.out).out ++ [])]
  have hrt := cbcRoundTrip (idEb (cDerive [112] salt0)) (idEb (cDerive [112] salt0))
    (fun blk hb => hb) (fun blk hb => rfl) bigStream.length bigRun.out.length iv0
    bigStream le_rfl (by rw [bigRunOut_length, bigStream_length])
    (by rw [bigStream_length]) rfl
  rw [← bigRun_def] at hrt
  rw [hrt.1, hrt.2]
  rw [ctxFinalize_nilCarry ((cbcDecCore (idEb (cDerive [112] salt0)) bigRun.out.length
    iv0 bigRun.out).prev)]
  have hlast : bigStream.getLast? = some 125 := List.getLast?_concat _
  simp [hlast]

/-! ## Small concrete instances -/

/-- Serialized fragment of the one-entry mapping `{"a": 1}`: the bytes of
`"a": 1`. -/
def smallFrag : List Nat := [34, 97, 34, 58, 32, 49]

def smallStream : List Nat := [123] ++ smallFrag ++ [125]

/-- Its one-block padded ciphertext under the identity block permutation and
the all-zero IV. -/
def smallCt : List Nat := smallStream ++ List.replicate 8 8

def smallContainer : List Nat :=
  methodTag ++ (salt0 ++ (iv0 ++ (List.replicate 32 5 ++ (toBytesBE 8 16 ++ smallCt))))

def smallWrites : List (List Nat) :=
  [methodTag, salt0, iv0, List.replicate 32 5, toBytesBE 8 16] ++ chunksOfCore 16 smallCt

/-- `json.loads` restricted to the small mapping: exactly the serialization
of `{"a": 1}` parses back to it (coded `0`); any other byte string is
malformed. -/
def smallLoads : List Nat → Option Nat := fun s => if s = smallStream then some 0 else none

/-- `json.loads` for the window-boundary mapping (coded `0`): only its exact
serialization is well-formed JSON. -/
def bigLoads : List Nat → Option Nat := fun s => if s = bigStream then some 0 else none

/-- `decrypt_json` after a successful byte-level pipeline hands the unpadded
bytes to `json.loads`. -/
theorem decrypt_json_of_core {J : Type} (Db hmacF deriveKey : List Nat → List Nat → List Nat)
    (loads : List Nat → Option J) (password gifBytes : Option (List Nat))
    (file unpadded : List Nat)
    (h : decrypt_core Db hmacF deriveKey password gifBytes file = .ok unpadded) :
    decrypt_json Db hmacF deriveKey loads password gifBytes file =
      (match loads unpadded with
       | some j => Except.ok j
       | none => Except.error CodecError.malformedPlaintext) := by
  unfold decrypt_json
  rw [h]

theorem bigTrunc_ne : bigStream.take (bigStream.length - 125) ≠ bigStream := by
  intro h
  have h2 := congrArg List.length h
  rw [List.length_take, bigStream_length] at h2
  norm_num at h2

/-- **C1** (code bug): the round-trip property fails.  For the mapping whose
single entry serializes to `bigFrag` — so that the streamed document is
exactly `2 ^ 20` bytes, one full processing window — `encrypt_json` succeeds,
emitting the unpadded window as ciphertext, but decrypting the produced
container with the same password hands `json.loads` the document truncated by
125 bytes (the value of its final `b'}'` byte), which is not valid JSON: the
result is an error, not a mapping equal to the input. -/
theorem c1_roundtrip_fails_at_window_multiple :
    encrypt_json idEb cHmac cDerive [bigFrag] (some [112]) none salt0 iv0 =
      .ok (bigContainer, bigWrites) ∧
    decrypt_json idEb cHmac cDerive bigLoads (some [112]) none bigContainer =
      .error .malformedPlaintext := by
  refine ⟨encrypt_big, ?_⟩
  rw [decrypt_json_of_core idEb cHmac cDerive bigLoads (some [112]) none bigContainer
    (bigStream.take (bigStream.length - 125)) decrypt_big]
  rw [show bigLoads (bigStream.take (bigStream.length - 125)) = none from
    by simp only [bigLoads]; rw [if_neg bigTrunc_ne]]

/-- **C3** (code bug): the always-padded invariant fails at window multiples.
For the window-boundary mapping the emitted ciphertext is the loop output
itself: the bytes after the 91-byte header have length exactly `2 ^ 20`,
equal to the serialized plaintext length, whereas the claimed padding scheme
(`k` bytes of value `k`, `1 ≤ k ≤ 16`, a full extra block when the remainder
is `0`) would require a `2 ^ 20 + 16`-byte ciphertext. -/
theorem c3_window_multiple_plaintext_unpadded :
    encrypt_json idEb cHmac cDerive [bigFrag] (some [112]) none salt0 iv0 =
      .ok (bigContainer, bigWrites) ∧
    bigStream.length % 16 = 0 ∧
    bigContainer.drop 91 = bigRun.out ∧
    bigRun.out.length = bigStream.length := by
  refine ⟨encrypt_big, by rw [bigStream_length], ?_, bigRun_aligned.2.1⟩
  exact (container_fields salt0 iv0 (List.replicate 32 5) (toBytesBE 8 bigRun.out.length)
    bigRun.out rfl rfl rfl (toBytesBE_length 8 bigRun.out.length)).2.2.2.2.2

/-- **C5** (confirmed): supplying both key sources or neither triggers the
line-118/120 (and 213/215) `ValueError` before any processing: `encrypt_json`
produces no container and no writes, and `decrypt_json` returns no mapping. -/
theorem c5_exclusive_key_source (Eb hmacF deriveKey : List Nat → List Nat → List Nat)
    (data : List (List Nat)) (salt iv file : List Nat) (loads : List Nat → Option Nat)
    (password gifBytes : Option (List Nat)) (h : password.isSome = gifBytes.isSome) :
    encrypt_json Eb hmacF deriveKey data password gifBytes salt iv =
      .error .invalidKeySource ∧
    decrypt_json Eb hmacF deriveKey loads password gifBytes file =
      .error .invalidKeySource := by
  cases password with
  | none =>
    cases gifBytes with
    | none => exact ⟨rfl, rfl⟩
    | some g => simp at h
  | some p =>
    cases gifBytes with
    | none => simp at h
    | some g => exact ⟨rfl, rfl⟩

theorem c5_exclusive_key_source_witness :
    (some [1] : Option (List Nat)).isSome = (some [2] : Option (List Nat)).isSome ∧
    (encrypt_json idEb cHmac cDerive [smallFrag] (some [1]) (some [2]) salt0 iv0 =
       .error .invalidKeySource ∧
     decrypt_json idEb cHmac cDerive smallLoads (some [1]) (some [2]) smallContainer =
       .error .invalidKeySource) :=
  ⟨rfl, c5_exclusive_key_source idEb cHmac cDerive [smallFrag] salt0 iv0 smallContainer
    smallLoads (some [1]) (some [2]) rfl⟩

/-- Any file shorter than the 91-byte header leaves an empty ciphertext
region, so the byte-level pipeline always ends in an error. -/
theorem decrypt_core_short (Db hmacF deriveKey : List Nat → List Nat → List Nat)
    (password gifBytes : Option (List Nat)) (file : List Nat) (hlen : file.length < 91) :
    ∃ e, decrypt_core Db hmacF deriveKey password gifBytes file = .error e := by
  cases hres : resolveMaterial password gifBytes with
  | error e =>
    refine ⟨e, ?_⟩
    unfold decrypt_core
    rw [hres]
  | ok material =>
    rw [decrypt_core_resolved Db hmacF deriveKey password gifBytes file material hres]
    simp only [decryptWithMaterial]
    have hct : file.drop 91 = [] := List.drop_eq_nil_of_le (by omega)
    rw [hct, readChunksCore_nil_src]
    split_ifs with h1 h2 h3 h4
    · exact ⟨.indexedEmpty, rfl⟩
    · exact ⟨.authenticationError, rfl⟩
    · exact ⟨.invalidIVSize, rfl⟩
    · exact ⟨.invalidKeySize, rfl⟩
    · exact ⟨.unsupportedMethod, rfl⟩

/-- **C7** (corrected): `decrypt_json` performs no header-size validation and
has no truncated-container error.  A file shorter than 91 bytes still never
decrypts to a mapping, but only because its ciphertext region is empty: the
failure surfaces later, as the wrong-method error, the line-267 `ValueError`
on an HMAC mismatch, or the line-273 `IndexError` on the empty decrypted
buffer — key derivation and MAC verification are attempted regardless. -/
theorem c7_short_file_never_returns_mapping
    (Db hmacF deriveKey : List Nat → List Nat → List Nat)
    (loads : List Nat → Option Nat) (password gifBytes : Option (List Nat))
    (file : List Nat) (hlen : file.length < 91) (j : Nat) :
    decrypt_json Db hmacF deriveKey loads password gifBytes file ≠ .ok j := by
  obtain ⟨e, he⟩ := decrypt_core_short Db hmacF deriveKey password gifBytes file hlen
  intro hok
  rw [show decrypt_json Db hmacF deriveKey loads password gifBytes file = .error e from
    by unfold decrypt_json; rw [he]] at hok
  exact Except.noConfusion hok

theorem c7_short_file_never_returns_mapping_witness :
    (methodTag ++ List.replicate 57 1 : List Nat).length < 91 ∧
    decrypt_json idEb cHmac cDerive smallLoads (some [112]) none
      (methodTag ++ List.replicate 57 1) ≠ .ok 0 :=
  ⟨by decide, c7_short_file_never_returns_mapping idEb cHmac cDerive smallLoads
    (some [112]) none (methodTag ++ List.replicate 57 1) (by decide) 0⟩

/-- A 60-byte file carrying the `b'pwd'` tag is rejected by the HMAC
comparison (`ValueError: Invalid password`), not by any truncation check:
key derivation and MAC verification have already run by then. -/
theorem c7_short_file_wrong_error :
    (methodTag ++ List.replicate 57 1 : List Nat).length = 60 ∧
    decrypt_core idEb cHmac cDerive (some [112]) none (methodTag ++ List.replicate 57 1) =
      .error .authenticationError := by
  decide

/-- **C8** (corrected): publication is *not* atomic.  `open(output_file,
'wb')` truncates the destination in place (line 187) and the header and
ciphertext are then appended by successive `write` calls, so an observer of
the destination path can see the truncated empty file and the bare 3-byte
method tag — partial states that are neither the old content nor the
finished container. -/
theorem c8_destination_written_incrementally
    (Eb hmacF deriveKey : List Nat → List Nat → List Nat)
    (data : List (List Nat)) (p salt iv C old : List Nat) (W : List (List Nat))
    (hE : encrypt_json Eb hmacF deriveKey data (some p) none salt iv = .ok (C, W)) :
    [] ∈ destStates old W ∧ methodTag ∈ destStates old W := by
  obtain ⟨-, -, ct, -, hW⟩ := encrypt_ok_structure Eb hmacF deriveKey data p salt iv C W hE
  subst hW
  constructor
  · simp [destStates, statesFrom]
  · simp [destStates, statesFrom]

theorem c8_destination_written_incrementally_witness :
    encrypt_json idEb cHmac cDerive [smallFrag] (some [112]) none salt0 iv0 =
      .ok (smallContainer, smallWrites) ∧
    ([] ∈ destStates [9] smallWrites ∧ methodTag ∈ destStates [9] smallWrites) :=
  ⟨by decide, c8_destination_written_incrementally idEb cHmac cDerive [smallFrag] [112]
    salt0 iv0 smallContainer [9] smallWrites (by decide)⟩

/-- While encrypting `{"a": 1}` over an old destination content `[9]`, the
destination passes through the bare method-tag state, which is neither the
old content, nor the finished container, nor empty-because-it-was-empty. -/
theorem c8_partial_destination_state :
    methodTag ∈ destStates [9] smallWrites ∧ methodTag ≠ [9] ∧
    methodTag ≠ smallContainer ∧ methodTag ≠ [] ∧
    ([] : List Nat) ∈ destStates [9] smallWrites ∧ ([9] : List Nat) ≠ [] := by
  decide

/-! ## Tampering with the integrity-tag field -/

theorem getD_append_left (l₁ l₂ : List Nat) (n d : Nat) (h : n < l₁.length) :
    (l₁ ++ l₂).getD n d = l₁.getD n d := by
  induction l₁ generalizing n with
  | nil => simp at h
  | cons x xs ih =>
    cases n with
    | zero => simp
    | succ m => simpa using ih m (by simpa using h)

theorem container_set_tag (salt iv digest lenB ct : List Nat) (i v : Nat)
    (hs : salt.length = 32) (hiv : iv.length = 16) (hdg : digest.length = 32)
    (hi1 : 51 ≤ i) (hi2 : i < 83) :
    (methodTag ++ (salt ++ (iv ++ (digest ++ (lenB ++ ct))))).set i v =
      methodTag ++ (salt ++ (iv ++ (digest.set (i - 51) v ++ (lenB ++ ct)))) := by
  rw [set_append_right methodTag _ i v
    (by rw [show (methodTag : List Nat).length = 3 from rfl]; omega)]
  rw [show (methodTag : List Nat).length = 3 from rfl]
  rw [set_append_right salt _ (i - 3) v (by rw [hs]; omega)]
  rw [hs]
  rw [set_append_right iv _ (i - 3 - 32) v (by rw [hiv]; omega)]
  rw [hiv]
  rw [set_append_left digest _ (i - 3 - 32 - 16) v (by rw [hdg]; omega)]
  rw [show i - 3 - 32 - 16 = i - 51 from by omega]

theorem container_getD_tag (salt iv digest lenB ct : List Nat) (i : Nat)
    (hs : salt.length = 32) (hiv : iv.length = 16) (hdg : digest.length = 32)
    (hi1 : 51 ≤ i) (hi2 : i < 83) :
    (methodTag ++ (salt ++ (iv ++ (digest ++ (lenB ++ ct))))).getD i 0 =
      digest.getD (i - 51) 0 := by
  rw [getD_append_right methodTag _ i 0
    (by rw [show (methodTag : List Nat).length = 3 from rfl]; omega)]
  rw [show (methodTag : List Nat).length = 3 from rfl]
  rw [getD_append_right salt _ (i - 3) 0 (by rw [hs]; omega)]
  rw [hs]
  rw [getD_append_right iv _ (i - 3 - 32) 0 (by rw [hiv]; omega)]
  rw [hiv]
  rw [getD_append_left digest _ (i - 3 - 32 - 16) 0 (by rw [hdg]; omega)]
  rw [show i - 3 - 32 - 16 = i - 51 from by omega]

theorem container_length_ct (salt iv digest ct : List Nat)
    (hs : salt.length = 32) (hiv : iv.length = 16) (hdg : digest.length = 32) :
    (methodTag ++ (salt ++ (iv ++ (digest ++ (toBytesBE 8 ct.length ++ ct))))).length =
      91 + ct.length := by
  simp [List.length_append, hs, hiv, hdg, toBytesBE_length, methodTag]
  omega

/-- **C2** (corrected, positive half): a single-bit flip anywhere inside the
32-byte integrity-tag field (offsets 51-82) makes the stored tag differ from
the tag recomputed over the unchanged ciphertext, so `decrypt_json` fails at
the line-266 comparison with the line-267 `ValueError` and returns no
mapping.  (The negative half — flips in the *length* field can go entirely
undetected — is the separate counterexample.) -/
theorem c2_integrity_tag_bitflip_fails_auth
    (Eb Db hmacF deriveKey : List Nat → List Nat → List Nat)
    (data : List (List Nat)) (p salt iv C : List Nat) (W : List (List Nat)) (i b : Nat)
    (hE : encrypt_json Eb hmacF deriveKey data (some p) none salt iv = .ok (C, W))
    (hs : salt.length = 32)
    (hdig : ∀ k m : List Nat, (hmacF k m).length = 32)
    (hClen : C.length < 91 + 256 ^ 8)
    (hi1 : 51 ≤ i) (hi2 : i < 83) :
    decrypt_core Db hmacF deriveKey (some p) none (C.set i (C.getD i 0 ^^^ 2 ^ b)) =
      .error .authenticationError := by
  obtain ⟨hk, hiv, ct, hC, -⟩ := encrypt_ok_structure Eb hmacF deriveKey data p salt iv C W hE
  subst hC
  have hdg : (hmacF (deriveKey p salt) ct).length = 32 := hdig _ _
  have hc : ct.length < 256 ^ 8 := by
    rw [container_length_ct salt iv _ ct hs hiv hdg] at hClen
    omega
  have hne : hmacF (deriveKey p salt) ct ≠
      (hmacF (deriveKey p salt) ct).set (i - 51)
        ((hmacF (deriveKey p salt) ct).getD (i - 51) 0 ^^^ 2 ^ b) :=
    (set_ne_of_getD_ne _ (i - 51) _ (by rw [hdg]; omega)
      (xor_two_pow_ne _ b)).symm
  rw [container_getD_tag salt iv (hmacF (deriveKey p salt) ct) (toBytesBE 8 ct.length)
    ct i hs hiv hdg hi1 hi2]
  rw [container_set_tag salt iv (hmacF (deriveKey p salt) ct) (toBytesBE 8 ct.length)
    ct i ((hmacF (deriveKey p salt) ct).getD (i - 51) 0 ^^^ 2 ^ b) hs hiv hdg hi1 hi2]
  exact decrypt_core_auth_mismatch Db hmacF deriveKey (some p) none p salt iv
    ((hmacF (deriveKey p salt) ct).set (i - 51)
      ((hmacF (deriveKey p salt) ct).getD (i - 51) 0 ^^^ 2 ^ b)) ct rfl hs hiv
    (by rw [List.length_set]; exact hdg) hc hk hne

theorem c2_integrity_tag_bitflip_fails_auth_witness :
    salt0.length = 32 ∧ smallContainer.length < 91 + 256 ^ 8 ∧
    decrypt_core idEb cHmac cDerive (some [112]) none
      (smallContainer.set 60 (smallContainer.getD 60 0 ^^^ 2 ^ 3)) =
      .error .authenticationError :=
  ⟨rfl, by decide, c2_integrity_tag_bitflip_fails_auth idEb idEb cHmac cDerive [smallFrag]
    [112] salt0 iv0 smallContainer smallWrites 60 3 (by decide) rfl (fun k m => rfl)
    (by decide) (by decide) (by decide)⟩

/-- **C2** (counterexample to the original wording): flipping the top bit of
container byte 83 — the most significant byte of the 8-byte length field —
leaves HMAC verification untouched: the read loop still obtains exactly the
16 stored ciphertext bytes (the oversized declared length just makes it stop
at end-of-file), the recomputed tag matches, and `decrypt_json` happily
returns the original mapping instead of failing with an authentication
error. -/
theorem c2_length_field_bitflip_returns_mapping :
    encrypt_json idEb cHmac cDerive [smallFrag] (some [112]) none salt0 iv0 =
      .ok (smallContainer, smallWrites) ∧
    smallContainer.set 83 (smallContainer.getD 83 0 ^^^ 2 ^ 7) ≠ smallContainer ∧
    decrypt_json idEb cHmac cDerive smallLoads (some [112]) none
      (smallContainer.set 83 (smallContainer.getD 83 0 ^^^ 2 ^ 7)) = .ok 0 := by
  decide

/-! ## Unpadding without validation -/

/-- A decrypted stream whose final byte is `200` — not a value the claimed
padding scheme could ever produce. -/
def c4Ct : List Nat := List.replicate 15 7 ++ [200]

/-- **C4** (corrected): after the HMAC check passes, `decrypt_json` reads the
last decrypted byte as `k` and strips exactly `k` bytes, but performs *no*
validation: there is no `1 ≤ k ≤ 16` check, no check that the last `k` bytes
equal `k`, and no `PaddingError` anywhere — even `k` far beyond the block
size (here `16 < k`) is accepted and the call still returns `.ok`. -/
theorem c4_unpad_without_validation (Db hmacF deriveKey : List Nat → List Nat → List Nat)
    (password gifBytes : Option (List Nat))
    (material salt iv storedHmac ct d q : List Nat) (k : Nat)
    (hres : resolveMaterial password gifBytes = .ok material)
    (hs : salt.length = 32) (hiv : iv.length = 16) (hst : storedHmac.length = 32)
    (hc : ct.length < 256 ^ 8)
    (hk : (deriveKey material salt).length = 32)
    (hmatch : hmacF (deriveKey material salt) ct = storedHmac)
    (hdec : decChunks (Db (deriveKey material salt)) ⟨iv, []⟩
        (readChunksCore (ct.length + 1) ct ct.length) = (⟨q, []⟩, d))
    (hlast : d.getLast? = some k) (hk0 : k ≠ 0) ( _hbig : 16 < k) :
    decrypt_core Db hmacF deriveKey password gifBytes
        (methodTag ++ (salt ++ (iv ++ (storedHmac ++ (toBytesBE 8 ct.length ++ ct))))) =
      .ok (d.take (d.length - k)) :=
  decrypt_core_unpad Db hmacF deriveKey password gifBytes material salt iv storedHmac
    ct d q k hres hs hiv hst hc hk hmatch hdec hlast hk0

theorem c4_unpad_without_validation_witness :
    ((16 : Nat) < 200 ∧ c4Ct.getLast? = some 200) ∧
    decrypt_core idEb cHmac cDerive (some [112]) none
        (methodTag ++ (salt0 ++ (iv0 ++ (List.replicate 32 5 ++
          (toBytesBE 8 c4Ct.length ++ c4Ct))))) =
      .ok (c4Ct.take (c4Ct.length - 200)) :=
  ⟨⟨by decide, by decide⟩, c4_unpad_without_validation idEb cHmac cDerive (some [112])
    none [112] salt0 iv0 (List.replicate 32 5) c4Ct c4Ct c4Ct 200 rfl rfl rfl rfl
    (by decide) rfl rfl (by decide) (by decide) (by decide) (by decide)⟩

/-- **C4** (counterexample to the original wording): a container whose single
ciphertext block decrypts to 15 bytes of `7` followed by `200` passes the
integrity check and is then "unpadded" with `k = 200`: the claimed validation
(`1 ≤ k ≤ 16`, last `k` bytes all `k`, `PaddingError` otherwise) would
reject it, but the call returns `.ok` with everything stripped (Python's
`data[:-200]` on 16 bytes is empty). -/
theorem c4_invalid_padding_accepted :
    c4Ct.getLast? = some 200 ∧ (16 : Nat) < 200 ∧
    decrypt_core idEb cHmac cDerive (some [112]) none
        (methodTag ++ (salt0 ++ (iv0 ++ (List.replicate 32 5 ++
          (toBytesBE 8 16 ++ c4Ct))))) = .ok [] := by
  decide

/-- **C6** (confirmed): every container a successful password-mode
`encrypt_json` call produces is exactly the 3-byte method tag, the 32-byte
salt, the 16-byte IV, the 32-byte HMAC tag, and the ciphertext length as an
8-byte big-endian integer — a 91-byte header — followed by the ciphertext;
and the `take`/`drop` slices at offsets 0/3/35/51/83/91, which are literally
the reads `decrypt_json` performs at lines 223-227, recover those same
fields in the same order. -/
theorem c6_container_layout
    (Eb hmacF deriveKey : List Nat → List Nat → List Nat)
    (data : List (List Nat)) (p salt iv C : List Nat) (W : List (List Nat))
    (hE : encrypt_json Eb hmacF deriveKey data (some p) none salt iv = .ok (C, W))
    (hs : salt.length = 32)
    (hdig : ∀ k m : List Nat, (hmacF k m).length = 32) :
    ∃ ct : List Nat,
      C = methodTag ++ (salt ++ (iv ++ (hmacF (deriveKey p salt) ct ++
        (toBytesBE 8 ct.length ++ ct)))) ∧
      C.length = 91 + ct.length ∧
      C.take 3 = methodTag ∧
      (C.drop 3).take 32 = salt ∧
      (C.drop 35).take 16 = iv ∧
      (C.drop 51).take 32 = hmacF (deriveKey p salt) ct ∧
      (C.drop 83).take 8 = toBytesBE 8 ct.length ∧
      C.drop 91 = ct := by
  obtain ⟨hk, hiv, ct, hC, -⟩ := encrypt_ok_structure Eb hmacF deriveKey data p salt iv C W hE
  subst hC
  obtain ⟨h1, h2, h3, h4, h5, h6⟩ := container_fields salt iv (hmacF (deriveKey p salt) ct)
    (toBytesBE 8 ct.length) ct hs hiv (hdig _ _) (toBytesBE_length 8 ct.length)
  exact ⟨ct, rfl, container_length_ct salt iv _ ct hs hiv (hdig _ _),
    h1, h2, h3, h4, h5, h6⟩

theorem c6_container_layout_witness :
    encrypt_json idEb cHmac cDerive [smallFrag] (some [112]) none salt0 iv0 =
      .ok (smallContainer, smallWrites) ∧
    ∃ ct : List Nat,
      smallContainer = methodTag ++ (salt0 ++ (iv0 ++ (cHmac (cDerive [112] salt0) ct ++
        (toBytesBE 8 ct.length ++ ct)))) ∧
      smallContainer.length = 91 + ct.length ∧
      smallContainer.take 3 = methodTag ∧
      (smallContainer.drop 3).take 32 = salt0 ∧
      (smallContainer.drop 35).take 16 = iv0 ∧
      (smallContainer.drop 51).take 32 = cHmac (cDerive [112] salt0) ct ∧
      (smallContainer.drop 83).take 8 = toBytesBE 8 ct.length ∧
      smallContainer.drop 91 = ct :=
  ⟨by decide, c6_container_layout idEb cHmac cDerive [smallFrag] [112] salt0 iv0
    smallContainer smallWrites (by decide) rfl (fun k m => rfl)⟩

/-! ## Wrong-key decryption -/

/-- Key derivation that embeds the password into a 32-byte key (one
instantiation under which distinct short passwords yield distinct keys). -/
def keyedDerive : List Nat → List Nat → List Nat :=
  fun m _ => (m ++ List.replicate 32 0).take 32

/-- A keyed digest: the 32-byte digest determined by the MAC key (one
instantiation under which distinct keys yield distinct digests). -/
def keyedHmac : List Nat → List Nat → List Nat :=
  fun k _ => (k ++ List.replicate 32 0).take 32

def c9Container : List Nat :=
  methodTag ++ (salt0 ++ (iv0 ++ ((([1] ++ List.replicate 32 0).take 32) ++
    (toBytesBE 8 16 ++ smallCt))))

def c9Writes : List (List Nat) :=
  [methodTag, salt0, iv0, ([1] ++ List.replicate 32 0).take 32, toBytesBE 8 16] ++
    chunksOfCore 16 smallCt

/-- **C9** (confirmed, under the idealization that different derived keys
produce different HMAC digests over the stored ciphertext): decrypting a
password-produced container with a different password derives a different
key, so the digest recomputed at line 251-260 differs from the stored tag,
`hmac.compare_digest` fails, and the call raises the line-267 `ValueError`
— an error value that carries no plaintext bytes, partial or otherwise. -/
theorem c9_wrong_key_fails_auth
    (Eb Db hmacF deriveKey : List Nat → List Nat → List Nat)
    (data : List (List Nat)) (p p2 salt iv C : List Nat) (W : List (List Nat))
    (hE : encrypt_json Eb hmacF deriveKey data (some p) none salt iv = .ok (C, W))
    (hs : salt.length = 32)
    (hk2 : (deriveKey p2 salt).length = 32)
    (hClen : C.length < 91 + 256 ^ 8)
    (hdig : ∀ k m : List Nat, (hmacF k m).length = 32)
    (hmacne : ∀ m : List Nat, hmacF (deriveKey p2 salt) m ≠ hmacF (deriveKey p salt) m) :
    decrypt_core Db hmacF deriveKey (some p2) none C = .error .authenticationError := by
  obtain ⟨hk, hiv, ct, hC, -⟩ := encrypt_ok_structure Eb hmacF deriveKey data p salt iv C W hE
  subst hC
  have hc : ct.length < 256 ^ 8 := by
    rw [container_length_ct salt iv _ ct hs hiv (hdig _ _)] at hClen
    omega
  exact decrypt_core_auth_mismatch Db hmacF deriveKey (some p2) none p2 salt iv
    (hmacF (deriveKey p salt) ct) ct rfl hs hiv (hdig _ _) hc hk2 (hmacne ct)

theorem c9_wrong_key_fails_auth_witness :
    encrypt_json idEb keyedHmac keyedDerive [smallFrag] (some [1]) none salt0 iv0 =
      .ok (c9Container, c9Writes) ∧
    decrypt_core idEb keyedHmac keyedDerive (some [2]) none c9Container =
      .error .authenticationError :=
  ⟨by decide, c9_wrong_key_fails_auth idEb idEb keyedHmac keyedDerive [smallFrag] [1] [2]
    salt0 iv0 c9Container c9Writes (by decide) rfl (by decide) (by decide)
    (fun k m => by simp [keyedHmac, List.length_take])
    (fun m => by simp only [keyedHmac, keyedDerive]; decide)⟩

/-! ## The length field is exact and trailing bytes are ignored -/

/-- **C10** (confirmed): the 8-byte big-endian field written at offset 83 is
exactly the length of the ciphertext that follows the 91-byte header, the
decoder reads back exactly that value, and the `while remaining > 0` loop
consumes exactly that many bytes — so appending arbitrary garbage after the
declared ciphertext leaves the decryption result unchanged. -/
theorem c10_length_field_bounds_ciphertext
    (Eb Db hmacF deriveKey : List Nat → List Nat → List Nat)
    (data : List (List Nat)) (p salt iv C garbage : List Nat) (W : List (List Nat))
    (hE : encrypt_json Eb hmacF deriveKey data (some p) none salt iv = .ok (C, W))
    (hs : salt.length = 32)
    (hdig : ∀ k m : List Nat, (hmacF k m).length = 32)
    (hClen : C.length < 91 + 256 ^ 8) :
    ∃ ct : List Nat,
      C.drop 91 = ct ∧
      (C.drop 83).take 8 = toBytesBE 8 ct.length ∧
      fromBytesBE ((C.drop 83).take 8) = ct.length ∧
      decrypt_core Db hmacF deriveKey (some p) none (C ++ garbage) =
        decrypt_core Db hmacF deriveKey (some p) none C := by
  obtain ⟨hk, hiv, ct, hC, -⟩ := encrypt_ok_structure Eb hmacF deriveKey data p salt iv C W hE
  subst hC
  have hdg : (hmacF (deriveKey p salt) ct).length = 32 := hdig _ _
  have hc : ct.length < 256 ^ 8 := by
    rw [container_length_ct salt iv _ ct hs hiv hdg] at hClen
    omega
  obtain ⟨h1, h2, h3, h4, h5, h6⟩ := container_fields salt iv (hmacF (deriveKey p salt) ct)
    (toBytesBE 8 ct.length) ct hs hiv hdg (toBytesBE_length 8 ct.length)
  refine ⟨ct, h6, h5, ?_, ?_⟩
  · rw [h5]
    exact fromBytesBE_toBytesBE 8 ct.length hc
  · have hassoc : (methodTag ++ (salt ++ (iv ++ (hmacF (deriveKey p salt) ct ++
        (toBytesBE 8 ct.length ++ ct))))) ++ garbage =
        methodTag ++ (salt ++ (iv ++ (hmacF (deriveKey p salt) ct ++
          (toBytesBE 8 ct.length ++ (ct ++ garbage))))) := by
      simp [List.append_assoc]
    rw [hassoc]
    rw [decrypt_core_parsed Db hmacF deriveKey (some p) none p salt iv
      (hmacF (deriveKey p salt) ct) (toBytesBE 8 ct.length) (ct ++ garbage) rfl hs hiv hdg
      (toBytesBE_length 8 ct.length) hk]
    rw [decrypt_core_parsed Db hmacF deriveKey (some p) none p salt iv
      (hmacF (deriveKey p salt) ct) (toBytesBE 8 ct.length) ct rfl hs hiv hdg
      (toBytesBE_length 8 ct.length) hk]
    rw [fromBytesBE_toBytesBE 8 ct.length hc]
    rw [readChunksCore_append_right ((ct ++ garbage).length + 1) (ct.length + 1) ct garbage
      ct.length le_rfl (by simp [List.length_append]; omega) (by omega)]

theorem c10_length_field_bounds_ciphertext_witness :
    encrypt_json idEb cHmac cDerive [smallFrag] (some [112]) none salt0 iv0 =
      .ok (smallContainer, smallWrites) ∧
    ∃ ct : List Nat,
      smallContainer.drop 91 = ct ∧
      (smallContainer.drop 83).take 8 = toBytesBE 8 ct.length ∧
      fromBytesBE ((smallContainer.drop 83).take 8) = ct.length ∧
      decrypt_core idEb cHmac cDerive (some [112]) none (smallContainer ++ [1, 2, 3]) =
        decrypt_core idEb cHmac cDerive (some [112]) none smallContainer :=
  ⟨by decide, c10_length_field_bounds_ciphertext idEb idEb cHmac cDerive [smallFrag]
    [112] salt0 iv0 smallContainer [1, 2, 3] smallWrites (by decide) rfl
    (fun k m => rfl) (by decide)⟩
